import Mathlib

/-!
Verification of the netlog message codec and the BigLog storage engine,
shallowly embedded from the Go sources.

Conventions of the embedding:
* Go byte slices are `List Nat` whose elements are byte values; writes into
  buffers always store values reduced `% 256` where Go performs a `byte` cast.
* Machine integers are modelled as `Nat`/`Int` with an explicit `% 2^32`
  (`U32`) wherever Go performs `uint32` arithmetic or casts.
* Fallible Go functions return `Except GoErr`/`Option`; a Go `panic` is
  modelled as the `GoErr.panicked` error value.
* `time.Now()` is passed in explicitly as a timestamp argument.
-/

set_option maxHeartbeats 1000000
set_option maxRecDepth 8000

namespace Netlog

/-- 2^32, the modulus of Go `uint32` arithmetic. -/
def U32 : Nat := 4294967296

/-- Model of all Go error values (and panics) relevant to the claims. -/
inductive GoErr where
  | eofErr
  | shortBuffer
  | panicked
  | invalidCompression
  | segmentFull
  | splitFailed
  | roInvalid
  | roNotFound
  | notFound
  | invalidOffset
  deriving DecidableEq, Repr

deriving instance DecidableEq for Except

/-- `binary.BigEndian.PutUint32`: the four big-endian bytes of a `uint32`. -/
def putU32 (v : Nat) : List Nat :=
  [v / 16777216 % 256, v / 65536 % 256, v / 256 % 256, v % 256]

/-- `binary.BigEndian.Uint32` read at byte position `i` of a buffer.
All call sites in the source read in bounds, so the `getD` default is inert. -/
def readU32 (b : List Nat) (i : Nat) : Nat :=
  b.getD i 0 * 16777216 + b.getD (i + 1) 0 * 65536 +
    b.getD (i + 2) 0 * 256 + b.getD (i + 3) 0

/-- The CRC-32 (IEEE) reflected polynomial, as in Go `hash/crc32`. -/
def crc32Poly : Nat := 3988292384

/-- One bit step of the reflected CRC-32 computation. -/
def crc32Step (c : Nat) : Nat :=
  if c % 2 = 1 then (c / 2) ^^^ crc32Poly else c / 2

/-- Absorb one input byte into the CRC state (eight bit steps). -/
def crc32Byte (c b : Nat) : Nat :=
  crc32Step^[8] (c ^^^ b % 256)

/-- Go `crc32.ChecksumIEEE`: table-driven in Go, bit-by-bit here
(the table implements exactly this function). -/
def crc32 (p : List Nat) : Nat :=
  (p.foldl crc32Byte 4294967295) ^^^ 4294967295

/-- A message is its raw byte buffer, as in the Go `type Message []byte`. -/
abbrev Message := List Nat

/-- Byte length of the fixed message header. -/
def headerSize : Nat := 9

/-- `MessageFromPayload`: 9-byte header (compver 0, CRC32 of payload,
payload length as `uint32`) followed by the payload. -/
def messageFromPayload (p : List Nat) : Message :=
  0 :: (putU32 (crc32 p) ++ (putU32 (p.length % U32) ++ p))

/-- `Message.CompVer`: first header byte. -/
def Message.compVer (m : Message) : Nat := m.getD 0 0

/-- `Message.Compression`: low nibble of the first byte (`CompVer & 15`). -/
def Message.compression (m : Message) : Nat := m.compVer % 16

/-- `Message.Version`: high nibble of the first byte (`CompVer >> 4`). -/
def Message.version (m : Message) : Nat := m.compVer / 16

/-- `Message.CRC32`: stored checksum field, bytes 1-4 big-endian. -/
def Message.crcField (m : Message) : Nat := readU32 m 1

/-- `Message.PLength`: stored payload length field, bytes 5-8 big-endian. -/
def Message.plength (m : Message) : Nat := readU32 m 5

/-- `Message.Size`: `int(m.PLength() + headerSize)` — a `uint32` addition. -/
def Message.size (m : Message) : Nat := (m.plength + headerSize) % U32

/-- `Message.Payload`: everything after the 9-byte header. -/
def Message.payload (m : Message) : List Nat := m.drop headerSize

/-- `Message.ChecksumOK`: recompute the payload CRC and compare with the field. -/
def Message.checksumOK (m : Message) : Bool := crc32 m.payload == m.crcField

theorem crc32Step_lt (c : Nat) (h : c < U32) : crc32Step c < U32 := by
  unfold crc32Step
  split
  · have h2 : c / 2 < 2 ^ 32 := by
      have := Nat.div_le_self c 2
      calc c / 2 ≤ c := this
        _ < 2 ^ 32 := h
    have : crc32Poly < 2 ^ 32 := by norm_num [crc32Poly]
    have := Nat.xor_lt_two_pow (n := 32) h2 this
    simpa [U32] using this
  · have := Nat.div_le_self c 2
    omega

theorem crc32Byte_lt (c b : Nat) (h : c < U32) : crc32Byte c b < U32 := by
  unfold crc32Byte
  have hx : c ^^^ b % 256 < U32 := by
    have h1 : c < 2 ^ 32 := by simpa [U32] using h
    have h2 : b % 256 < 2 ^ 32 := by
      have : b % 256 < 256 := Nat.mod_lt _ (by norm_num)
      omega
    have := Nat.xor_lt_two_pow (n := 32) h1 h2
    simpa [U32] using this
  have : ∀ k x, x < U32 → crc32Step^[k] x < U32 := by
    intro k
    induction k with
    | zero => intro x hx; simpa using hx
    | succ n ih =>
      intro x hx
      rw [Function.iterate_succ_apply]
      exact ih _ (crc32Step_lt x hx)
  exact this 8 _ hx

theorem crc32_lt (p : List Nat) : crc32 p < U32 := by
  unfold crc32
  have hfold : ∀ (l : List Nat) (c : Nat), c < U32 → l.foldl crc32Byte c < U32 := by
    intro l
    induction l with
    | nil => intro c hc; simpa using hc
    | cons a t ih =>
      intro c hc
      simpa using ih _ (crc32Byte_lt c a hc)
  have h1 : (p.foldl crc32Byte 4294967295) < U32 := hfold p _ (by norm_num [U32])
  have h2 : (4294967295 : Nat) < 2 ^ 32 := by norm_num
  have := Nat.xor_lt_two_pow (n := 32) (by simpa [U32] using h1) h2
  simpa [U32] using this

theorem readU32_putU32 (v : Nat) (hv : v < U32) (rest : List Nat) :
    readU32 (putU32 v ++ rest) 0 = v := by
  simp only [U32] at hv
  simp only [putU32, readU32, List.cons_append, List.getD_cons_zero, List.getD_cons_succ]
  omega

theorem readU32_cons_putU32_one (x u : Nat) (rest : List Nat) (hu : u < U32) :
    readU32 (x :: (putU32 u ++ rest)) 1 = u := by
  simp only [U32] at hu
  simp only [putU32, readU32, List.cons_append, List.nil_append,
    List.getD_cons_zero, List.getD_cons_succ]
  omega

theorem readU32_cons_putU32_five (x u v : Nat) (rest : List Nat) (hv : v < U32) :
    readU32 (x :: (putU32 u ++ (putU32 v ++ rest))) 5 = v := by
  simp only [U32] at hv
  simp only [putU32, readU32, List.cons_append, List.nil_append,
    List.getD_cons_zero, List.getD_cons_succ]
  omega

theorem payload_messageFromPayload (p : List Nat) :
    (messageFromPayload p).payload = p := by
  simp [messageFromPayload, putU32, Message.payload, headerSize]

theorem plength_messageFromPayload (p : List Nat) :
    (messageFromPayload p).plength = p.length % U32 := by
  have hb : p.length % U32 < U32 := Nat.mod_lt _ (by norm_num [U32])
  unfold messageFromPayload Message.plength
  exact readU32_cons_putU32_five 0 (crc32 p) (p.length % U32) p hb

theorem crcField_messageFromPayload (p : List Nat) :
    (messageFromPayload p).crcField = crc32 p := by
  have hb : crc32 p < U32 := crc32_lt p
  unfold messageFromPayload Message.crcField
  exact readU32_cons_putU32_one 0 (crc32 p) _ hb

theorem compVer_messageFromPayload (p : List Nat) :
    (messageFromPayload p).compVer = 0 := by
  simp [messageFromPayload, Message.compVer]

/-- Claim C4 as stated is refuted by a 2^32-byte payload: Go stores the
payload length as `uint32(len(p))`, which truncates, so `PLength` is 0
rather than 2^32 for this input. -/
theorem C4_counterexample :
    ¬ ((messageFromPayload (List.replicate U32 0)).payload = List.replicate U32 0 ∧
       (messageFromPayload (List.replicate U32 0)).plength = (List.replicate U32 0).length ∧
       (messageFromPayload (List.replicate U32 0)).crcField = crc32 (List.replicate U32 0) ∧
       (messageFromPayload (List.replicate U32 0)).checksumOK = true ∧
       (messageFromPayload (List.replicate U32 0)).size = (List.replicate U32 0).length + 9 ∧
       (messageFromPayload (List.replicate U32 0)).compVer = 0) := by
  intro h
  have h2 := h.2.1
  rw [plength_messageFromPayload, List.length_replicate, Nat.mod_self] at h2
  exact absurd h2.symm (by norm_num [U32])

/-- Claim C4, amended: for every payload `p` with `len(p) + 9 < 2^32`
(so that the `uint32` length field and `Size` do not truncate),
`MessageFromPayload(p)` has payload `p`, `PLength = len(p)`, a stored CRC
field equal to `crc32.ChecksumIEEE(p)` (hence `ChecksumOK`), `Size = len(p)+9`
and a zero `compver` byte. -/
theorem C4_message_from_payload (p : List Nat) (hp : p.length + headerSize < U32) :
    (messageFromPayload p).payload = p ∧
    (messageFromPayload p).plength = p.length ∧
    (messageFromPayload p).crcField = crc32 p ∧
    (messageFromPayload p).checksumOK = true ∧
    (messageFromPayload p).size = p.length + headerSize ∧
    (messageFromPayload p).compVer = 0 := by
  have hlen : p.length % U32 = p.length := by
    apply Nat.mod_eq_of_lt
    simp only [headerSize] at hp
    omega
  refine ⟨payload_messageFromPayload p, ?_, crcField_messageFromPayload p, ?_, ?_,
    compVer_messageFromPayload p⟩
  · rw [plength_messageFromPayload, hlen]
  · simp [Message.checksumOK, payload_messageFromPayload, crcField_messageFromPayload]
  · rw [Message.size, plength_messageFromPayload, hlen, Nat.mod_eq_of_lt hp]

/-- Witness for `C4_message_from_payload` at the concrete payload `[1, 2, 3]`. -/
theorem C4_witness :
    ([1, 2, 3] : List Nat).length + headerSize < U32 ∧
    ((messageFromPayload [1, 2, 3]).payload = [1, 2, 3] ∧
     (messageFromPayload [1, 2, 3]).plength = 3 ∧
     (messageFromPayload [1, 2, 3]).crcField = crc32 [1, 2, 3] ∧
     (messageFromPayload [1, 2, 3]).checksumOK = true ∧
     (messageFromPayload [1, 2, 3]).size = 12 ∧
     (messageFromPayload [1, 2, 3]).compVer = 0) :=
  ⟨by norm_num [headerSize, U32], C4_message_from_payload [1, 2, 3] (by norm_num [headerSize, U32])⟩

theorem getD_take_of_lt (l : List Nat) (n i d : Nat) (h : i < n) :
    (l.take n).getD i d = l.getD i d := by
  simp [List.getD_eq_getElem?_getD, List.getElem?_take_of_lt h]

theorem readU32_take_nine (l : List Nat) : readU32 (l.take 9) 5 = readU32 l 5 := by
  unfold readU32
  rw [getD_take_of_lt _ _ _ _ (by norm_num), getD_take_of_lt _ _ _ _ (by norm_num),
    getD_take_of_lt _ _ _ _ (by norm_num), getD_take_of_lt _ _ _ _ (by norm_num)]

/-- `ReadMessage` over an in-memory byte source (the `bytes.Reader` used by
`unpack`): reads a 9-byte header in one `Read` call, allocates a buffer of
`entry.Size()` bytes, copies the header and fills the rest with a second
`Read` whose error is discarded (missing payload bytes stay zero).
Returns the message together with the unconsumed remainder of the source.
`GoErr.panicked` models the Go slice-bounds panic of `buf[9:]` when the
`uint32` addition inside `Size()` wraps below the header size. -/
def readMessage (input : List Nat) : Except GoErr (Message × List Nat) :=
  if input.length = 0 then .error .eofErr
  else if input.length < headerSize then .error .shortBuffer
  else if Message.size (input.take headerSize) < headerSize then .error .panicked
  else .ok (input.take (Message.size (input.take headerSize)) ++
      List.replicate (Message.size (input.take headerSize) - input.length) 0,
    input.drop (Message.size (input.take headerSize)))

/-- Claim C6 as stated is refuted: on a source holding a full 9-byte header
whose payload-length field is `2^32 - 9`, the `uint32` addition inside
`Size()` wraps to 0, so `buf[headerSize:]` panics with a slice-bounds
violation. `ReadMessage` neither surfaces EOF nor a short-buffer error nor
returns a message, contradicting the claim's trichotomy for this source. -/
theorem C6_counterexample :
    9 ≤ ([0, 0, 0, 0, 0, 255, 255, 255, 247] : List Nat).length ∧
    readU32 [0, 0, 0, 0, 0, 255, 255, 255, 247] 5 = U32 - 9 ∧
    readMessage [0, 0, 0, 0, 0, 255, 255, 255, 247] ≠ .error .eofErr ∧
    readMessage [0, 0, 0, 0, 0, 255, 255, 255, 247] ≠ .error .shortBuffer ∧
    readMessage [0, 0, 0, 0, 0, 255, 255, 255, 247] = .error .panicked := by
  decide

/-- Claim C6, amended: `ReadMessage` surfaces EOF on an empty source, fails
with a short-buffer error when fewer than 9 header bytes are available, and,
provided the header's length field satisfies `PLength + 9 < 2^32` (so the
`uint32` addition inside `Size()` does not wrap below the header size),
reads the 9-byte header followed by `PLength` payload bytes, returning
exactly that complete message and consuming exactly its bytes. -/
theorem C6_read_message (input : List Nat) :
    (input = [] → readMessage input = .error .eofErr) ∧
    (0 < input.length → input.length < headerSize → readMessage input = .error .shortBuffer) ∧
    (∀ plen, plen = readU32 input 5 → plen + headerSize < U32 →
      headerSize + plen ≤ input.length →
      readMessage input =
        .ok (input.take (headerSize + plen), input.drop (headerSize + plen))) := by
  refine ⟨?_, ?_, ?_⟩
  · intro h; subst h; rfl
  · intro h0 h9
    unfold readMessage
    rw [if_neg (by omega), if_pos h9]
  · intro plen hplen hnw hle
    simp only [headerSize] at hnw hle
    have hU : (9 : Nat) + plen < U32 := by simp only [U32] at *; omega
    have h0 : ¬ input.length = 0 := by omega
    have h9 : ¬ input.length < 9 := by omega
    have hsz : Message.size (input.take 9) = 9 + plen := by
      unfold Message.size Message.plength
      simp only [headerSize]
      rw [readU32_take_nine, ← hplen, Nat.mod_eq_of_lt (by omega)]
      omega
    simp only [readMessage, headerSize, hsz]
    rw [if_neg h0, if_neg h9, if_neg (by omega)]
    have hrep : 9 + plen - input.length = 0 := by omega
    rw [hrep]
    simp

/-- Witness for `C6_read_message` on a concrete 12-byte source holding one
9+2-byte message followed by one extra byte. -/
theorem C6_witness :
    readMessage [0, 0, 0, 0, 0, 0, 0, 0, 2, 7, 8, 9] =
      .ok ([0, 0, 0, 0, 0, 0, 0, 0, 2, 7, 8], [9]) := by
  have h := (C6_read_message [0, 0, 0, 0, 0, 0, 0, 0, 2, 7, 8, 9]).2.2 2
    (by decide) (by decide) (by decide)
  simpa using h

/-- The read loop shared by `unpack`: repeatedly `ReadMessage` until an
error; a clean EOF yields the collected messages, any other error is
returned. The structural fuel only bounds the recursion; every successful
`ReadMessage` consumes at least nine bytes, so `input.length + 1` rounds
(as supplied by `parseMessages`) can never exhaust it. -/
def parseLoop : Nat → List Nat → Except GoErr (List Message)
  | 0, _ => .error .panicked
  | fuel + 1, input =>
    match readMessage input with
    | .error .eofErr => .ok []
    | .error e => .error e
    | .ok (m, rest) =>
      match parseLoop fuel rest with
      | .ok ms => .ok (m :: ms)
      | .error e => .error e

/-- The message-collecting loop of `unpack`, with sufficient fuel. -/
def parseMessages (input : List Nat) : Except GoErr (List Message) :=
  parseLoop (input.length + 1) input

/-- Abstract model of a streaming compressor/decompressor pair
(`compress/gzip` or `github.com/golang/snappy`); writing a byte sequence
through the compressor and reading it back through the matching
decompressor is the library contract `decompress (compress x) = x`. -/
structure Codec where
  compress : List Nat → List Nat
  decompress : List Nat → List Nat

/-- The trivial codec (models `NopWCloser`, i.e. no compression). -/
def idCodec : Codec := ⟨fun x => x, fun x => x⟩

/-- `CompressionDefault` (0): reserved, `MessageSet` panics on it. -/
def compressionDefault : Nat := 0

/-- `CompressionNone` (1). -/
def compressionNone : Nat := 1

/-- `CompressionGzip` (2). -/
def compressionGzip : Nat := 2

/-- `CompressionSnappy` (3). -/
def compressionSnappy : Nat := 3

/-- `m[PosCompver] = byte(comp)`: overwrite the first byte of a message. -/
def setCompverByte (m : Message) (comp : Nat) : Message := m.set 0 (comp % 256)

/-- `MessageSet`: write all messages through the chosen compressor, wrap the
result via `MessageFromPayload` and stamp the compression code into the
first header byte. `none` models the Go panic on an invalid compression
type (notably `CompressionDefault`). -/
def messageSet (gz sn : Codec) (msgs : List Message) (comp : Nat) : Option Message :=
  let packed :=
    if comp = compressionNone then some (List.flatten msgs)
    else if comp = compressionGzip then some (gz.compress (List.flatten msgs))
    else if comp = compressionSnappy then some (sn.compress (List.flatten msgs))
    else none
  packed.map fun b => setCompverByte (messageFromPayload b) comp

/-- The internal `unpack(data, comp)`: wrap the data in the matching
decompressor (identity for codes 0 and 1) and collect messages until EOF. -/
def unpackData (gz sn : Codec) (data : List Nat) (comp : Nat) : Except GoErr (List Message) :=
  if comp = 0 then parseMessages data
  else if comp = compressionNone then parseMessages data
  else if comp = compressionGzip then parseMessages (gz.decompress data)
  else if comp = compressionSnappy then parseMessages (sn.decompress data)
  else .error .invalidCompression

/-- `Unpack`: a set with a positive compression code unpacks its payload;
code 0 (legacy, "not a set") unpacks the whole buffer as a raw sequence. -/
def unpack (gz sn : Codec) (s : Message) : Except GoErr (List Message) :=
  if s.compression > 0 then unpackData gz sn s.payload s.compression
  else unpackData gz sn s 0

/-- A byte buffer that is a syntactically valid framed message: at least a
full header, and total length agreeing with the `Size()` computed from its
own length field. -/
def WFMessage (m : Message) : Prop :=
  headerSize ≤ m.length ∧ m.length = Message.size m

instance (m : Message) : Decidable (WFMessage m) := by
  unfold WFMessage
  infer_instance

theorem readMessage_wf_prefix (m : Message) (rest : List Nat) (h : WFMessage m) :
    readMessage (m ++ rest) = .ok (m, rest) := by
  obtain ⟨h9, hsz⟩ := h
  simp only [headerSize] at h9
  have hlen : (m ++ rest).length = m.length + rest.length := List.length_append m rest
  have key : Message.size ((m ++ rest).take headerSize) = m.length := by
    simp only [headerSize]
    rw [List.take_append_of_le_length h9]
    unfold Message.size Message.plength
    rw [readU32_take_nine]
    simp only [headerSize]
    unfold Message.size Message.plength headerSize at hsz
    omega
  unfold readMessage
  rw [key, if_neg (by omega), if_neg (by simp only [headerSize]; omega),
    if_neg (by simp only [headerSize]; omega), List.take_left' rfl, List.drop_left' rfl]
  have h0 : m.length - (m ++ rest).length = 0 := by omega
  rw [h0]
  simp

theorem parseLoop_join (ms : List Message) (hwf : ∀ m ∈ ms, WFMessage m) :
    ∀ fuel, (List.flatten ms).length < fuel → parseLoop fuel (List.flatten ms) = .ok ms := by
  induction ms with
  | nil =>
    intro fuel hf
    match fuel, hf with
    | fuel + 1, _ => rfl
  | cons m t ih =>
    intro fuel hf
    have hm := hwf m (by simp)
    have h9 : 9 ≤ m.length := by simpa [headerSize] using hm.1
    have hjoin : List.flatten (m :: t) = m ++ List.flatten t := List.flatten_cons ..
    match fuel, hf with
    | fuel + 1, hf =>
      have hf2 : (List.flatten t).length < fuel := by
        rw [hjoin, List.length_append] at hf
        omega
      have hih := ih (fun x hx => hwf x (by simp [hx])) fuel hf2
      rw [hjoin]
      simp only [parseLoop, readMessage_wf_prefix m (List.flatten t) hm, hih]

/-- Claim C3: for any compressor/decompressor pairs satisfying the library
round-trip contract, packing a non-empty list of well-formed messages with
compression none/gzip/snappy and unpacking the resulting message-set
succeeds and returns messages whose payloads equal the original payloads,
element by element and in order. -/
theorem C3_pack_unpack_roundtrip (gz sn : Codec)
    (hgz : ∀ x, gz.decompress (gz.compress x) = x)
    (hsn : ∀ x, sn.decompress (sn.compress x) = x)
    (ms : List Message) (hne : ms ≠ []) (hwf : ∀ m ∈ ms, WFMessage m)
    (comp : Nat)
    (hc : comp = compressionNone ∨ comp = compressionGzip ∨ comp = compressionSnappy) :
    ∃ s, messageSet gz sn ms comp = some s ∧
      ∃ res, unpack gz sn s = .ok res ∧
        res.map Message.payload = ms.map Message.payload := by
  clear hne
  have hparse : parseMessages (List.flatten ms) = .ok ms :=
    parseLoop_join ms hwf _ (Nat.lt_succ_self _)
  have hcomp256 : comp % 256 = comp := by
    rcases hc with h | h | h <;> subst h <;> rfl
  have key : ∀ packed : List Nat,
      ∃ s, some (setCompverByte (messageFromPayload packed) comp) = some s ∧
        Message.compression s = comp ∧ Message.payload s = packed := by
    intro packed
    refine ⟨_, rfl, ?_, ?_⟩
    · unfold setCompverByte messageFromPayload Message.compression Message.compVer
      simp only [List.set_cons_zero, List.getD_cons_zero, hcomp256]
      rcases hc with h | h | h <;> subst h <;> rfl
    · unfold setCompverByte messageFromPayload Message.payload
      simp [headerSize, putU32]
  rcases hc with h | h | h <;> subst h
  · obtain ⟨s, hs, hscomp, hspay⟩ := key (List.flatten ms)
    refine ⟨s, by simpa [messageSet, compressionNone] using hs, ms, ?_, rfl⟩
    rw [unpack, if_pos (by rw [hscomp]; norm_num [compressionNone]), hscomp, hspay]
    simpa [unpackData, compressionNone] using hparse
  · obtain ⟨s, hs, hscomp, hspay⟩ := key (gz.compress (List.flatten ms))
    refine ⟨s, by simpa [messageSet, compressionGzip, compressionNone] using hs, ms, ?_, rfl⟩
    rw [unpack, if_pos (by rw [hscomp]; norm_num [compressionGzip]), hscomp, hspay]
    simpa [unpackData, compressionGzip, compressionNone, hgz] using hparse
  · obtain ⟨s, hs, hscomp, hspay⟩ := key (sn.compress (List.flatten ms))
    refine ⟨s, by simpa [messageSet, compressionSnappy, compressionGzip, compressionNone] using hs,
      ms, ?_, rfl⟩
    rw [unpack, if_pos (by rw [hscomp]; norm_num [compressionSnappy]), hscomp, hspay]
    simpa [unpackData, compressionSnappy, compressionGzip, compressionNone, hsn] using hparse

/-- Witness for `C3_pack_unpack_roundtrip` with the identity codec and two
concrete messages built by `MessageFromPayload`. -/
theorem C3_witness :
    ∃ s, messageSet idCodec idCodec
        [messageFromPayload [1], messageFromPayload [2, 3]] compressionGzip = some s ∧
      ∃ res, unpack idCodec idCodec s = .ok res ∧
        res.map Message.payload =
          [messageFromPayload [1], messageFromPayload [2, 3]].map Message.payload :=
  C3_pack_unpack_roundtrip idCodec idCodec (fun _ => rfl) (fun _ => rfl)
    [messageFromPayload [1], messageFromPayload [2, 3]] (by simp)
    (by decide) compressionGzip (Or.inr (Or.inl rfl))

/-- Byte width of the relative-offset field of an index entry (`ow`). -/
def ow : Nat := 4

/-- Byte offset of the end of the timestamp field (`tw = ow + 4`). -/
def tw : Nat := 8

/-- Byte width of a full index entry (`iw = tw + 8`). -/
def iw : Nat := 16

/-- One 16-byte index entry: `relOffset:u32 | timestamp:u32 | dFO:u64`.
The mmapped byte array is modelled as a list of such entries; all reads and
writes in the source access whole 16-byte-aligned fields. -/
structure IdxEntry where
  relOffset : Nat
  timestamp : Nat
  dataFileOffset : Nat
  deriving DecidableEq, Repr

/-- The all-zeroes (never written) index entry. -/
def zeroEntry : IdxEntry := ⟨0, 0, 0⟩

/-- A segment: base offset, mmapped index, next offsets, and the byte size
of the data file (`NdFO` must track it; `healthCheckPartialWrite` repairs a
mismatch). Data bytes themselves are irrelevant to the claims. -/
structure Segment where
  baseOffset : Int
  index : List IdxEntry
  NRO : Nat
  NiFO : Nat
  NdFO : Nat
  dataSize : Nat
  deriving DecidableEq, Repr

/-- Placeholder for `getD` on segment lists; never reachable in the claims. -/
def dummySegment : Segment := ⟨0, [], 0, 0, 0, 0⟩

/-- `s.indexSize = uint32(len(s.index))` in bytes. -/
def Segment.indexSize (s : Segment) : Nat := (iw * s.index.length) % U32

/-- `readEntry(s.index[iFO:])` for a 16-byte-aligned byte offset `iFO`. -/
def readEntryAt (idx : List IdxEntry) (iFO : Nat) : IdxEntry :=
  idx.getD (iFO / iw) zeroEntry

/-- `writeEntry`: store relative offset and data file offset of an entry. -/
def writeEntryAt (idx : List IdxEntry) (iFO ro dfo : Nat) : List IdxEntry :=
  idx.set (iFO / iw)
    { idx.getD (iFO / iw) zeroEntry with relOffset := ro, dataFileOffset := dfo }

/-- `writeEntryTS`: store the timestamp field of an entry. -/
def writeEntryTSAt (idx : List IdxEntry) (iFO ts : Nat) : List IdxEntry :=
  idx.set (iFO / iw) { idx.getD (iFO / iw) zeroEntry with timestamp := ts }

/-- The loop of Go `sort.Search` on the interval `[i, j)`. The structural
fuel only bounds the iteration count: each round strictly shrinks `j - i`,
so the `n` rounds supplied by `sortSearch` can never run out. -/
def sortSearchGo (f : Nat → Bool) : Nat → Nat → Nat → Nat
  | 0, i, _ => i
  | fuel + 1, i, j =>
    if i < j then
      if f ((i + j) / 2) then sortSearchGo f fuel i ((i + j) / 2)
      else sortSearchGo f fuel ((i + j) / 2 + 1) j
    else i

/-- Go `sort.Search(n, f)`. -/
def sortSearch (n : Nat) (f : Nat → Bool) : Nat := sortSearchGo f n 0 n

theorem sortSearchGo_spec (f : Nat → Bool) :
    ∀ (fuel i j : Nat), i ≤ j → j - i ≤ fuel →
    i ≤ sortSearchGo f fuel i j ∧ sortSearchGo f fuel i j ≤ j ∧
    (sortSearchGo f fuel i j < j → f (sortSearchGo f fuel i j) = true) ∧
    (i < sortSearchGo f fuel i j → f (sortSearchGo f fuel i j - 1) = false) := by
  intro fuel
  induction fuel with
  | zero =>
    intro i j hij hfu
    have hij2 : i = j := by omega
    subst hij2
    refine ⟨Nat.le_refl i, Nat.le_refl i, ?_, ?_⟩ <;> simp [sortSearchGo]
  | succ fuel ih =>
    intro i j hij hfu
    by_cases hlt : i < j
    · by_cases hmid : f ((i + j) / 2) = true
      · have heq : sortSearchGo f (fuel + 1) i j = sortSearchGo f fuel i ((i + j) / 2) := by
          show (if i < j then _ else i) = _
          rw [if_pos hlt, if_pos hmid]
        obtain ⟨a, b, c, d⟩ := ih i ((i + j) / 2) (by omega) (by omega)
        rw [heq]
        refine ⟨a, by omega, ?_, d⟩
        intro hr
        by_cases hm2 : sortSearchGo f fuel i ((i + j) / 2) < (i + j) / 2
        · exact c hm2
        · have hEq2 : sortSearchGo f fuel i ((i + j) / 2) = (i + j) / 2 := by omega
          rw [hEq2]
          exact hmid
      · have heq : sortSearchGo f (fuel + 1) i j = sortSearchGo f fuel ((i + j) / 2 + 1) j := by
          show (if i < j then _ else i) = _
          rw [if_pos hlt, if_neg hmid]
        obtain ⟨a, b, c, d⟩ := ih ((i + j) / 2 + 1) j (by omega) (by omega)
        rw [heq]
        refine ⟨by omega, b, c, ?_⟩
        intro hr
        by_cases hm2 : (i + j) / 2 + 1 < sortSearchGo f fuel ((i + j) / 2 + 1) j
        · exact d hm2
        · have hEq2 : sortSearchGo f fuel ((i + j) / 2 + 1) j = (i + j) / 2 + 1 := by omega
          rw [hEq2]
          simpa using hmid
    · have heq : sortSearchGo f (fuel + 1) i j = i := by
        show (if i < j then _ else i) = i
        rw [if_neg hlt]
      rw [heq]
      exact ⟨Nat.le_refl i, hij, by omega, by omega⟩

theorem sortSearch_spec (n : Nat) (f : Nat → Bool) :
    sortSearch n f ≤ n ∧
    (sortSearch n f < n → f (sortSearch n f) = true) ∧
    (0 < sortSearch n f → f (sortSearch n f - 1) = false) := by
  obtain ⟨_, b, c, d⟩ := sortSearchGo_spec f n 0 n (Nat.zero_le n) (by omega)
  exact ⟨b, c, d⟩

/-- The `sort.Search` inside `indexOfNRO`: first index whose entry has a
zero relative offset. `indexOfNRO` itself is `(nroSearch - 1) * iw`. -/
def nroSearch (idx : List IdxEntry) : Nat :=
  sortSearch ((iw * idx.length) % U32 / iw)
    (fun i => (idx.getD i zeroEntry).relOffset == 0)

/-- `loadSegment`/`setNextOffsets`: derive `NRO`, `NiFO` and `NdFO` from the
index contents (the data file size is reported by the filesystem). `none`
models the Go slice-bounds panic of `indexOfNRO` when the binary search
returns 0 and `(0 - 1) * iw` becomes a negative slice index. -/
def loadSegment (base : Int) (idx : List IdxEntry) (dataSize : Nat) : Option Segment :=
  if nroSearch idx = 0 then none
  else some
    { baseOffset := base
      index := idx
      NRO := (readEntryAt idx ((nroSearch idx - 1) * iw)).relOffset
      NiFO := (nroSearch idx - 1) * iw
      NdFO := (readEntryAt idx ((nroSearch idx - 1) * iw)).dataFileOffset
      dataSize := dataSize }

/-- `createSegIndex` zero-fills `maxIndexEntries` entries and overwrites the
first with `(relOffset 1, ts 0, dFO 0)`. -/
def freshIndex (maxIndexEntries : Nat) : List IdxEntry :=
  writeEntryAt (List.replicate maxIndexEntries zeroEntry) 0 1 0

/-- `createSegment`: create both files and load the segment. `none` models
the Go panic of `writeEntry` on a zero-entry index. -/
def createSegment (maxIndexEntries : Nat) (base : Int) : Option Segment :=
  if maxIndexEntries = 0 then none
  else loadSegment base (freshIndex maxIndexEntries) 0

/-- `setCreatedTS`: the segment creation stamp is the first entry's field. -/
def Segment.createdTS (s : Segment) : Nat := (readEntryAt s.index 0).timestamp

/-- `IsFull`: `NiFO + iw >= indexSize`. -/
def Segment.isFull (s : Segment) : Bool := s.indexSize ≤ s.NiFO + iw

/-- `updateIndex(entries, length)`: stamp the current entry's timestamp,
advance `NRO`/`NdFO`/`NiFO` (all `uint32`/`int64` arithmetic), then write the
next entry `(NRO, NdFO)` at the new head. `panicked` models the `0 NRO`
panic and the out-of-bounds entry writes. -/
def updateIndex (s : Segment) (entries len ts : Nat) : Except GoErr Segment :=
  if s.NRO = 0 then .error .panicked
  else if s.indexSize < s.NiFO + tw then .error .panicked
  else if s.indexSize < (s.NiFO + iw) % U32 + iw then .error .panicked
  else .ok { s with
    index := writeEntryAt (writeEntryTSAt s.index s.NiFO (ts % U32))
      ((s.NiFO + iw) % U32) ((s.NRO + entries) % U32) (s.NdFO + len)
    NRO := (s.NRO + entries) % U32
    NdFO := s.NdFO + len
    NiFO := (s.NiFO + iw) % U32 }

/-- `segment.write`: refuse when the index has no free entry, else append
the bytes to the data file. -/
def Segment.write (s : Segment) (b : List Nat) : Except GoErr (Nat × Segment) :=
  if s.indexSize ≤ s.NiFO then .error .segmentFull
  else .ok (b.length, { s with dataSize := s.dataSize + b.length })

/-- `segment.WriteN`: write the bytes, then update the index by `n` offsets. -/
def Segment.writeN (s : Segment) (b : List Nat) (n ts : Nat) :
    Except GoErr (Nat × Segment) :=
  match s.write b with
  | .error e => .error e
  | .ok (w, s1) =>
    match updateIndex s1 n w ts with
    | .error e => .error e
    | .ok s2 => .ok (w, s2)

/-- The `lookupRes` record returned by `segment.Lookup`. -/
structure LookupRes where
  RO : Nat
  TS : Nat
  fRO : Nat
  iFO : Nat
  dFO : Nat
  deriving DecidableEq, Repr

/-- Outcome of `segment.Lookup`: a plain result, a result paired with the
`ErrEmbeddedOffset` sentinel, one of the two error returns, or a Go panic
(slice bound violation or the explicit malformed-index panic). -/
inductive LookupOut where
  | found (l : LookupRes)
  | embedded (l : LookupRes)
  | errInvalid
  | errNotFound
  | panicked
  deriving DecidableEq, Repr

/-- `segment.searchRO`: binary-search the index for the entry holding `RO`;
an entry with a smaller relative offset means `RO` is embedded in a batch. -/
def Segment.searchRO (s : Segment) (RO : Nat) : LookupOut :=
  let r := sortSearch (s.indexSize / iw)
    (fun i =>
      let e := readEntryAt s.index (i * iw)
      RO < e.relOffset || e.relOffset == 0)
  if r = 0 then .panicked
  else
    let e := readEntryAt s.index ((r - 1) * iw)
    if e.relOffset < RO then
      .embedded ⟨RO, e.timestamp, e.relOffset, (r - 1) * iw, e.dataFileOffset⟩
    else
      .found ⟨RO, e.timestamp, e.relOffset, (r - 1) * iw, e.dataFileOffset⟩

/-- `segment.Lookup(RO)`: reject `RO = 0` and `RO > NRO`; try the
direct-indexed slot `(RO-1)*iw` (a `uint32` multiplication), panicking when
that byte offset falls outside the mmapped index; fall back to binary
search. -/
def Segment.lookup (s : Segment) (RO : Nat) : LookupOut :=
  if RO = 0 then .errInvalid
  else if s.NRO < RO then .errNotFound
  else
    let maxIFO := (RO - 1) * iw % U32
    if s.indexSize < maxIFO + iw then .panicked
    else
      let e := readEntryAt s.index maxIFO
      if e.relOffset = RO then
        .found ⟨RO, e.timestamp, RO, maxIFO, e.dataFileOffset⟩
      else if e.relOffset ≠ 0 ∧ e.relOffset < RO - 1 then .panicked
      else s.searchRO RO

/-- `segment.searchTS`: first entry whose timestamp is at or after `TS`
(zero timestamps mark the next-to-write entry and also match). -/
def Segment.searchTS (s : Segment) (TS : Nat) : Except GoErr LookupRes :=
  let r := sortSearch (s.indexSize / iw)
    (fun i =>
      let e := readEntryAt s.index (i * iw)
      TS < e.timestamp || e.timestamp == TS || e.timestamp == 0)
  if s.indexSize < r * iw + iw then .error .panicked
  else
    let e := readEntryAt s.index (r * iw)
    .ok ⟨e.relOffset, e.timestamp, e.relOffset, r * iw, e.dataFileOffset⟩

/-- `absolute(offset, base) = int64(offset) + base - 1`. -/
def absolute (offset : Nat) (base : Int) : Int := (offset : Int) + base - 1

/-- A BigLog is its ordered list of segments; the last one is hot. -/
structure BigLog where
  segs : List Segment
  deriving DecidableEq, Repr

/-- The hot (write-accepting) segment: the last-loaded one. -/
def hotSeg (bl : BigLog) : Segment := bl.segs.getLastD dummySegment

/-- `biglog.Create`: make the directory and a first segment at base 0. -/
def blCreate (maxIndexEntries : Nat) : Option BigLog :=
  (createSegment maxIndexEntries 0).map fun s => ⟨[s]⟩

/-- `Oldest`: base offset of the first segment. -/
def blOldest (bl : BigLog) : Int := (bl.segs.headD dummySegment).baseOffset

/-- `latest`: `-1` for a single empty segment, otherwise
`absolute(hot.NRO - 1, hot.baseOffset)` with a `uint32` decrement. -/
def blLatest (bl : BigLog) : Int :=
  if bl.segs.length = 1 ∧ (hotSeg bl).NRO = 1 then -1
  else absolute (((hotSeg bl).NRO + (U32 - 1)) % U32) (hotSeg bl).baseOffset

/-- The absolute offset the next write will receive: the hot segment's
next relative offset translated to an absolute position. -/
def blNextOffset (bl : BigLog) : Int :=
  absolute (hotSeg bl).NRO (hotSeg bl).baseOffset

/-- `split`: create a segment at `latest+1` with the hot segment's
`maxIndexEntries` and make it hot. `none` models the `O_EXCL` failure of
`createSegIndex` when a segment with that base offset already exists on
disk, and the create-time panic. -/
def blSplit (bl : BigLog) : Option BigLog :=
  if bl.segs.any fun s => s.baseOffset = blLatest bl + 1 then none
  else
    (createSegment ((hotSeg bl).indexSize / iw) (blLatest bl + 1)).map
      fun s => ⟨bl.segs ++ [s]⟩

/-- `splitIfFull`: split only when the hot segment is full. -/
def blSplitIfFull (bl : BigLog) : Option BigLog :=
  if (hotSeg bl).isFull then blSplit bl else some bl

/-- Replace the hot segment after a write into it. -/
def setHot (bl : BigLog) (s : Segment) : BigLog := ⟨bl.segs.dropLast ++ [s]⟩

/-- `BigLog.WriteN(b, n)`: split if the hot segment is full, then delegate
to the hot segment's `WriteN` with `uint32(n)`. -/
def blWriteN (bl : BigLog) (b : List Nat) (n ts : Nat) :
    Except GoErr (Nat × BigLog) :=
  match blSplitIfFull bl with
  | none => .error .splitFailed
  | some bl1 =>
    match (hotSeg bl1).writeN b (n % U32) ts with
    | .error e => .error e
    | .ok (w, hot2) => .ok (w, setHot bl1 hot2)

/-- `uint32(t)` for an `int64` unix timestamp. -/
def u32ofInt (t : Int) : Nat := (t % (U32 : Int)).toNat

/-- `After(t)`: locate the segment by creation stamp (binary search over
segments), then the first entry at or after the timestamp within it. -/
def blAfter (bl : BigLog) (t : Int) : Except GoErr Int :=
  let TS := u32ofInt t
  let i := sortSearch bl.segs.length
    (fun k => TS < (bl.segs.getD k dummySegment).createdTS)
  if i = 0 then .error .notFound
  else
    let seg := bl.segs.getD (i - 1) dummySegment
    match seg.searchTS TS with
    | .error e => .error e
    | .ok l => .ok (absolute l.RO seg.baseOffset)

/-- One request of a write trace: payload bytes, offset count, wall clock. -/
structure WriteReq where
  b : List Nat
  n : Nat
  ts : Nat
  deriving DecidableEq, Repr

/-- Run a sequence of `BigLog.WriteN` calls, recording for each write the
absolute offset at which it lands (the hot segment's next offset after any
split); `none` as soon as one write fails. -/
def runWrites (bl : BigLog) : List WriteReq → Option (List Int × BigLog)
  | [] => some ([], bl)
  | w :: ws =>
    match blSplitIfFull bl with
    | none => none
    | some bl1 =>
      match (hotSeg bl1).writeN w.b (w.n % U32) w.ts with
      | .error _ => none
      | .ok (_, hot2) =>
        match runWrites (setHot bl1 hot2) ws with
        | none => none
        | some (os, blf) => some (blNextOffset bl1 :: os, blf)

/-- No write of the trace overflows the hot segment's `uint32` next
relative offset (checked on the post-split segment that receives it). -/
def noWrapWrites (bl : BigLog) : List WriteReq → Bool
  | [] => true
  | w :: ws =>
    match blSplitIfFull bl with
    | none => true
    | some bl1 =>
      ((hotSeg bl1).NRO + w.n % U32 < U32 : Bool) &&
      match (hotSeg bl1).writeN w.b (w.n % U32) w.ts with
      | .error _ => true
      | .ok (_, hot2) => noWrapWrites (setHot bl1 hot2) ws

theorem getD_set_self_entry (l : List IdxEntry) (i : Nat) (a : IdxEntry)
    (h : i < l.length) : (l.set i a).getD i zeroEntry = a := by
  simp [List.getD_eq_getElem?_getD, List.getElem?_set_self h]

theorem getD_set_ne_entry (l : List IdxEntry) (i j : Nat) (a : IdxEntry)
    (h : i ≠ j) : (l.set i a).getD j zeroEntry = l.getD j zeroEntry := by
  simp [List.getD_eq_getElem?_getD, List.getElem?_set_ne h]

theorem getD_replicate_entry (n i : Nat) :
    (List.replicate n zeroEntry).getD i zeroEntry = zeroEntry := by
  simp only [List.getD_eq_getElem?_getD, List.getElem?_replicate]
  split <;> rfl

theorem freshIndex_length (max : Nat) : (freshIndex max).length = max := by
  simp [freshIndex, writeEntryAt]

theorem freshIndex_getD_zero (max : Nat) (h : 1 ≤ max) :
    (freshIndex max).getD 0 zeroEntry = ⟨1, 0, 0⟩ := by
  unfold freshIndex writeEntryAt
  rw [show (0 : Nat) / iw = 0 from rfl, getD_set_self_entry _ _ _ (by simpa using h),
    getD_replicate_entry]
  rfl

theorem freshIndex_getD_pos (max i : Nat) (h : 1 ≤ i) :
    (freshIndex max).getD i zeroEntry = zeroEntry := by
  unfold freshIndex writeEntryAt
  rw [show (0 : Nat) / iw = 0 from rfl, getD_set_ne_entry _ _ _ _ (by omega),
    getD_replicate_entry]

theorem freshIndex_f_pos (max j : Nat) (hj : 1 ≤ j) :
    (((freshIndex max).getD j zeroEntry).relOffset == 0) = true := by
  rw [freshIndex_getD_pos max j hj]
  rfl

theorem nroSearch_fresh (max : Nat) (h1 : 1 ≤ max)
    (hn : 1 ≤ (iw * max) % U32 / iw) : nroSearch (freshIndex max) = 1 := by
  unfold nroSearch
  rw [freshIndex_length]
  obtain ⟨hb, hc, hd⟩ := sortSearch_spec ((iw * max) % U32 / iw)
    (fun i => ((freshIndex max).getD i zeroEntry).relOffset == 0)
  set r := sortSearch ((iw * max) % U32 / iw)
    (fun i => ((freshIndex max).getD i zeroEntry).relOffset == 0) with hr
  by_cases h0 : r = 0
  · exfalso
    have hc0 := hc (by omega)
    rw [h0, freshIndex_getD_zero max h1] at hc0
    exact absurd hc0 (by decide)
  · by_cases h2 : 2 ≤ r
    · exfalso
      have hfalse := hd (by omega)
      have htrue := freshIndex_f_pos max (r - 1) (by omega)
      simp only at hfalse htrue
      rw [htrue] at hfalse
      exact absurd hfalse (by simp)
    · omega

theorem nroSearch_fresh_zero (max : Nat) (h1 : 1 ≤ max)
    (hn : ¬ 1 ≤ (iw * max) % U32 / iw) : nroSearch (freshIndex max) = 0 := by
  unfold nroSearch
  rw [freshIndex_length]
  obtain ⟨hb, _, _⟩ := sortSearch_spec ((iw * max) % U32 / iw)
    (fun i => ((freshIndex max).getD i zeroEntry).relOffset == 0)
  omega

theorem createSegment_some (max : Nat) (base : Int) (s : Segment)
    (h : createSegment max base = some s) :
    s = ⟨base, freshIndex max, 1, 0, 0, 0⟩ ∧ 1 ≤ max := by
  unfold createSegment at h
  split at h
  · exact absurd h (by simp)
  · rename_i hmax
    have h1 : 1 ≤ max := by omega
    unfold loadSegment at h
    split at h
    · exact absurd h (by simp)
    · rename_i hnz
      have hn : 1 ≤ (iw * max) % U32 / iw := by
        by_contra hc
        exact hnz (nroSearch_fresh_zero max h1 hc)
      have hns : nroSearch (freshIndex max) = 1 := nroSearch_fresh max h1 hn
      rw [hns] at h
      have hentry : readEntryAt (freshIndex max) ((1 - 1) * iw) = ⟨1, 0, 0⟩ := by
        unfold readEntryAt
        rw [show (1 - 1) * iw / iw = 0 by norm_num, freshIndex_getD_zero max h1]
      rw [hentry] at h
      refine ⟨(Option.some.inj h).symm ▸ rfl, h1⟩

theorem createSegment_eq (max : Nat) (base : Int) (h1 : 1 ≤ max)
    (hU : iw * max < U32) :
    createSegment max base = some
      { baseOffset := base, index := freshIndex max, NRO := 1, NiFO := 0,
        NdFO := 0, dataSize := 0 } := by
  have hn : 1 ≤ (iw * max) % U32 / iw := by
    rw [Nat.mod_eq_of_lt hU, Nat.mul_div_cancel_left max (show 0 < iw by norm_num [iw])]
    exact h1
  have hns : nroSearch (freshIndex max) = 1 := nroSearch_fresh max h1 hn
  unfold createSegment loadSegment
  rw [if_neg (by omega), if_neg (by rw [hns]; norm_num), hns]
  have hentry : readEntryAt (freshIndex max) ((1 - 1) * iw) = ⟨1, 0, 0⟩ := by
    unfold readEntryAt
    rw [show (1 - 1) * iw / iw = 0 by norm_num, freshIndex_getD_zero max h1]
  rw [hentry]
  rfl

theorem writeN_ok (s : Segment) (b : List Nat) (n ts w : Nat) (s2 : Segment)
    (h : s.writeN b n ts = .ok (w, s2)) :
    s.NiFO < s.indexSize ∧ s.NRO ≠ 0 ∧ s.NiFO + tw ≤ s.indexSize ∧
    (s.NiFO + iw) % U32 + iw ≤ s.indexSize ∧ w = b.length ∧
    s2 = { s with
      index := writeEntryAt (writeEntryTSAt s.index s.NiFO (ts % U32))
        ((s.NiFO + iw) % U32) ((s.NRO + n) % U32) (s.NdFO + b.length)
      NRO := (s.NRO + n) % U32
      NdFO := s.NdFO + b.length
      NiFO := (s.NiFO + iw) % U32
      dataSize := s.dataSize + b.length } := by
  unfold Segment.writeN Segment.write at h
  by_cases h1 : s.indexSize ≤ s.NiFO
  · rw [if_pos h1] at h
    exact absurd h (by simp)
  rw [if_neg h1] at h
  simp only [] at h
  unfold updateIndex at h
  by_cases h2 : ({ s with dataSize := s.dataSize + b.length } : Segment).NRO = 0
  · rw [if_pos h2] at h
    exact absurd h (by simp)
  rw [if_neg h2] at h
  by_cases h3 : ({ s with dataSize := s.dataSize + b.length } : Segment).indexSize <
      ({ s with dataSize := s.dataSize + b.length } : Segment).NiFO + tw
  · rw [if_pos h3] at h
    exact absurd h (by simp)
  rw [if_neg h3] at h
  by_cases h4 : ({ s with dataSize := s.dataSize + b.length } : Segment).indexSize <
      (({ s with dataSize := s.dataSize + b.length } : Segment).NiFO + iw) % U32 + iw
  · rw [if_pos h4] at h
    exact absurd h (by simp)
  rw [if_neg h4] at h
  simp only [Except.ok.injEq, Prod.mk.injEq] at h
  obtain ⟨hw, hs2⟩ := h
  have hsz : ({ s with dataSize := s.dataSize + b.length } : Segment).indexSize
      = s.indexSize := rfl
  have hni : ({ s with dataSize := s.dataSize + b.length } : Segment).NiFO = s.NiFO := rfl
  have hnr : ({ s with dataSize := s.dataSize + b.length } : Segment).NRO = s.NRO := rfl
  rw [hsz, hni] at h3 h4
  rw [hnr] at h2
  refine ⟨by omega, h2, by omega, by omega, hw.symm, hs2.symm⟩

/-- The segment states reachable through creation and successful `WriteN`s. -/
inductive SegReachable : Segment → Prop where
  | created (max : Nat) (base : Int) (s : Segment) :
      createSegment max base = some s → SegReachable s
  | step (s : Segment) (b : List Nat) (n ts w : Nat) (s2 : Segment) :
      SegReachable s → s.writeN b n ts = .ok (w, s2) → SegReachable s2

/-- The index-head invariant maintained by `createSegment` and `WriteN`. -/
def SegInv (s : Segment) : Prop :=
  s.NiFO % iw = 0 ∧
  readEntryAt s.index s.NiFO = ⟨s.NRO, 0, s.NdFO⟩ ∧
  s.NdFO = s.dataSize ∧
  (∀ j, s.NiFO / iw < j → s.index.getD j zeroEntry = zeroEntry)

theorem segInv_created (max : Nat) (base : Int) (s : Segment)
    (h : createSegment max base = some s) : SegInv s := by
  obtain ⟨rfl, h1⟩ := createSegment_some max base s h
  refine ⟨rfl, ?_, rfl, ?_⟩
  · show readEntryAt (freshIndex max) 0 = ⟨1, 0, 0⟩
    unfold readEntryAt
    rw [show (0 : Nat) / iw = 0 from rfl, freshIndex_getD_zero max h1]
  · intro j hj
    have hj1 : 1 ≤ j := by
      have hz : (⟨base, freshIndex max, 1, 0, 0, 0⟩ : Segment).NiFO / iw = 0 :=
        Nat.zero_div iw
      omega
    exact freshIndex_getD_pos max j hj1

theorem segInv_step (s : Segment) (b : List Nat) (n ts w : Nat) (s2 : Segment)
    (hinv : SegInv s) (h : s.writeN b n ts = .ok (w, s2)) : SegInv s2 := by
  obtain ⟨hmod, hhead, hdata, hzero⟩ := hinv
  obtain ⟨hfree, hnro, hts, hnext, hw, hs2⟩ := writeN_ok s b n ts w s2 h
  subst hs2
  have h16 : iw = 16 := rfl
  rw [h16] at hmod hnext hzero
  have hsz16 : s.indexSize % 16 = 0 := by
    unfold Segment.indexSize
    rw [Nat.mod_mod_of_dvd _ (show (16 : Nat) ∣ U32 by norm_num [U32]), h16]
    omega
  have hszlt : s.indexSize < U32 := by
    unfold Segment.indexSize
    exact Nat.mod_lt _ (by norm_num [U32])
  have hnwrap : (s.NiFO + 16) % U32 = s.NiFO + 16 := by
    apply Nat.mod_eq_of_lt
    simp only [U32] at hszlt ⊢
    omega
  rw [hnwrap] at hnext
  have hIlen : s.indexSize ≤ 16 * s.index.length := by
    unfold Segment.indexSize
    rw [h16]
    exact Nat.mod_le _ _
  have hlen : s.NiFO / 16 + 1 < s.index.length := by omega
  have hdiv : (s.NiFO + 16) / 16 = s.NiFO / 16 + 1 :=
    Nat.add_div_right _ (by norm_num)
  refine ⟨?_, ?_, ?_, ?_⟩
  · show ((s.NiFO + iw) % U32) % iw = 0
    rw [h16, hnwrap]
    omega
  · show readEntryAt _ ((s.NiFO + iw) % U32) = _
    unfold readEntryAt writeEntryAt writeEntryTSAt
    rw [h16, hnwrap, hdiv]
    rw [getD_set_self_entry _ _ _ (by simpa using hlen)]
    rw [getD_set_ne_entry _ _ _ _ (by omega), hzero _ (by omega)]
    rfl
  · show s.NdFO + b.length = s.dataSize + b.length
    omega
  · intro j hj
    rw [h16, hnwrap, hdiv] at hj
    show (writeEntryAt (writeEntryTSAt s.index s.NiFO (ts % U32))
      ((s.NiFO + iw) % U32) ((s.NRO + n) % U32) (s.NdFO + b.length)).getD j zeroEntry = zeroEntry
    unfold writeEntryAt writeEntryTSAt
    rw [h16, hnwrap, hdiv]
    rw [getD_set_ne_entry _ _ _ _ (by omega), getD_set_ne_entry _ _ _ _ (by omega)]
    exact hzero _ (by omega)

theorem segInv_of_reachable (s : Segment) (h : SegReachable s) : SegInv s := by
  induction h with
  | created max base s hc => exact segInv_created max base s hc
  | step s b n ts w s2 _ hw ih => exact segInv_step s b n ts w s2 ih hw

/-- Claim C2: for every segment reachable by creation and successful
`WriteN`s, the entry at byte offset `NiFO` is the next entry to be written:
relOffset `NRO`, timestamp zero, and dataFileOffset `NdFO`, which equals
the data file's current size. -/
theorem C2_index_head_entry (s : Segment) (h : SegReachable s) :
    readEntryAt s.index s.NiFO = ⟨s.NRO, 0, s.NdFO⟩ ∧ s.NdFO = s.dataSize := by
  obtain ⟨_, h2, h3, _⟩ := segInv_of_reachable s h
  exact ⟨h2, h3⟩

/-- The segment created with four index entries. -/
def c2WitSeg0 : Segment := (createSegment 4 0).getD dummySegment

/-- The same segment after `WriteN([7], 1)`. -/
def c2WitSeg : Segment :=
  ((c2WitSeg0.writeN [7] 1 11).toOption.map Prod.snd).getD dummySegment

/-- Witness for `C2_index_head_entry` on a concrete created-and-written
segment. -/
theorem C2_witness :
    readEntryAt c2WitSeg.index c2WitSeg.NiFO =
      ⟨c2WitSeg.NRO, 0, c2WitSeg.NdFO⟩ ∧ c2WitSeg.NdFO = c2WitSeg.dataSize :=
  C2_index_head_entry c2WitSeg
    (SegReachable.step c2WitSeg0 [7] 1 11 1 c2WitSeg
      (SegReachable.created 4 0 c2WitSeg0 (by decide))
      (by decide))

theorem hotSeg_concat (l : List Segment) (x : Segment) : hotSeg ⟨l ++ [x]⟩ = x := by
  unfold hotSeg
  exact List.getLastD_concat _ _ _

theorem hotSeg_setHot (bl : BigLog) (x : Segment) : hotSeg (setHot bl x) = x := by
  unfold setHot
  exact hotSeg_concat _ _

theorem hotSeg_mem (bl : BigLog) (h : bl.segs ≠ []) : hotSeg bl ∈ bl.segs := by
  unfold hotSeg
  rw [List.getLastD_eq_getLast?, List.getLast?_eq_getLast _ h]
  exact List.getLast_mem h

theorem writeEntryAt_length (idx : List IdxEntry) (iFO ro dfo : Nat) :
    (writeEntryAt idx iFO ro dfo).length = idx.length := by
  unfold writeEntryAt
  exact List.length_set ..

theorem writeEntryTSAt_length (idx : List IdxEntry) (iFO ts : Nat) :
    (writeEntryTSAt idx iFO ts).length = idx.length := by
  unfold writeEntryTSAt
  exact List.length_set ..

/-- The invariant on BigLog states reached from `Create` by writes/splits. -/
def GoodBL (bl : BigLog) : Prop :=
  bl.segs ≠ [] ∧
  (∀ s ∈ bl.segs, s.baseOffset ≤ (hotSeg bl).baseOffset) ∧
  1 ≤ (hotSeg bl).NRO ∧ (hotSeg bl).NRO < U32 ∧
  1 ≤ (hotSeg bl).index.length ∧ iw * (hotSeg bl).index.length < U32 ∧
  (bl.segs.length = 1 ∧ (hotSeg bl).NRO = 1 → (hotSeg bl).baseOffset = 0)

theorem blLatest_of_ge_two (bl : BigLog) (h1 : 2 ≤ (hotSeg bl).NRO)
    (h2 : (hotSeg bl).NRO < U32) :
    blLatest bl = (hotSeg bl).baseOffset + ((hotSeg bl).NRO : Int) - 2 := by
  unfold blLatest
  rw [if_neg (by omega)]
  unfold absolute
  have hmod : ((hotSeg bl).NRO + (U32 - 1)) % U32 = (hotSeg bl).NRO - 1 := by
    simp only [U32] at *
    omega
  rw [hmod]
  have : (((hotSeg bl).NRO - 1 : Nat) : Int) = ((hotSeg bl).NRO : Int) - 1 := by
    omega
  rw [this]
  ring

theorem blSplit_ok (bl bl2 : BigLog) (hg : GoodBL bl) (h : blSplit bl = some bl2) :
    blNextOffset bl2 = blNextOffset bl ∧ GoodBL bl2 := by
  obtain ⟨hne, hbase, hn1, hn2, hl1, hl2, hsingle⟩ := hg
  unfold blSplit at h
  split at h
  · exact absurd h (by simp)
  rename_i hcol
  have hcol2 : ∀ s ∈ bl.segs, ¬ s.baseOffset = blLatest bl + 1 := by
    intro s hs hval
    exact hcol (by rw [List.any_eq_true]; exact ⟨s, hs, by simpa using hval⟩)
  have hmaxIE : (hotSeg bl).indexSize / iw = (hotSeg bl).index.length := by
    unfold Segment.indexSize
    rw [Nat.mod_eq_of_lt hl2, Nat.mul_div_cancel_left _ (show 0 < iw by norm_num [iw])]
  -- a successful split implies the hot segment holds at least one offset
  have hge2 : 2 ≤ (hotSeg bl).NRO := by
    by_contra hlt
    have hnro1 : (hotSeg bl).NRO = 1 := by omega
    have hhotmem := hotSeg_mem bl hne
    by_cases hone : bl.segs.length = 1
    · have hb0 : (hotSeg bl).baseOffset = 0 := hsingle ⟨hone, hnro1⟩
      have hlat : blLatest bl = -1 := by
        unfold blLatest
        rw [if_pos ⟨hone, hnro1⟩]
      exact hcol2 (hotSeg bl) hhotmem (by rw [hb0, hlat]; ring)
    · have hlat : blLatest bl = (hotSeg bl).baseOffset - 1 := by
        unfold blLatest
        rw [if_neg (by tauto)]
        unfold absolute
        rw [hnro1]
        norm_num [U32]
      exact hcol2 (hotSeg bl) hhotmem (by rw [hlat]; ring)
  rw [hmaxIE] at h
  rcases Option.map_eq_some'.mp h with ⟨seg, hcs, hbl2⟩
  obtain ⟨hseg, _⟩ := createSegment_some _ _ _ hcs
  subst hbl2
  subst hseg
  have hlat := blLatest_of_ge_two bl hge2 hn2
  have hhot2 : hotSeg ⟨bl.segs ++ [⟨blLatest bl + 1, freshIndex (hotSeg bl).index.length,
      1, 0, 0, 0⟩]⟩ = ⟨blLatest bl + 1, freshIndex (hotSeg bl).index.length, 1, 0, 0, 0⟩ :=
    hotSeg_concat _ _
  constructor
  · unfold blNextOffset
    rw [hhot2]
    unfold absolute
    rw [hlat]
    push_cast
    ring
  · refine ⟨by simp, ?_, ?_, ?_, ?_, ?_, ?_⟩
    · intro s hs
      rw [hhot2]
      rcases List.mem_append.mp hs with hs | hs
      · have := hbase s hs
        show s.baseOffset ≤ blLatest bl + 1
        rw [hlat]
        have hge : (1 : Int) ≤ ((hotSeg bl).NRO : Int) := by exact_mod_cast hn1
        omega
      · rw [List.mem_singleton.mp hs]
    · rw [hhot2]
    · rw [hhot2]
      norm_num [U32]
    · rw [hhot2]
      show 1 ≤ (freshIndex (hotSeg bl).index.length).length
      rw [freshIndex_length]
      exact hl1
    · rw [hhot2]
      show iw * (freshIndex (hotSeg bl).index.length).length < U32
      rw [freshIndex_length]
      exact hl2
    · intro hcontra
      exfalso
      have := hcontra.1
      rw [List.length_append] at this
      simp at this
      exact hne this

theorem blSplitIfFull_ok (bl bl1 : BigLog) (hg : GoodBL bl)
    (h : blSplitIfFull bl = some bl1) :
    blNextOffset bl1 = blNextOffset bl ∧ GoodBL bl1 := by
  unfold blSplitIfFull at h
  split at h
  · exact blSplit_ok bl bl1 hg h
  · obtain rfl := Option.some.inj h
    exact ⟨rfl, hg⟩

theorem hotWrite_ok (bl1 : BigLog) (b : List Nat) (m ts w : Nat) (hot2 : Segment)
    (hg : GoodBL bl1) (hm1 : 1 ≤ m) (hnw : (hotSeg bl1).NRO + m < U32)
    (h : (hotSeg bl1).writeN b m ts = .ok (w, hot2)) :
    blNextOffset (setHot bl1 hot2) = blNextOffset bl1 + (m : Int) ∧
      GoodBL (setHot bl1 hot2) := by
  obtain ⟨hne, hbase, hn1, hn2, hl1, hl2, _⟩ := hg
  obtain ⟨_, _, _, _, _, hs2⟩ := writeN_ok _ b m ts w hot2 h
  have hmod : ((hotSeg bl1).NRO + m) % U32 = (hotSeg bl1).NRO + m :=
    Nat.mod_eq_of_lt hnw
  have hhot : hotSeg (setHot bl1 hot2) = hot2 := hotSeg_setHot bl1 hot2
  have hb2 : hot2.baseOffset = (hotSeg bl1).baseOffset := by rw [hs2]
  have hnro2 : hot2.NRO = (hotSeg bl1).NRO + m := by rw [hs2]; exact hmod
  have hlen2 : hot2.index.length = (hotSeg bl1).index.length := by
    rw [hs2]
    show (writeEntryAt _ _ _ _).length = _
    rw [writeEntryAt_length, writeEntryTSAt_length]
  constructor
  · unfold blNextOffset absolute
    rw [hhot, hb2, hnro2]
    push_cast
    ring
  · refine ⟨by simp [setHot], ?_, ?_, ?_, ?_, ?_, ?_⟩
    · intro s hs
      rw [hhot, hb2]
      rcases List.mem_append.mp hs with hs | hs
      · exact hbase s (List.dropLast_subset _ hs)
      · rw [List.mem_singleton.mp hs, hb2]
    · rw [hhot, hnro2]
      omega
    · rw [hhot, hnro2]
      omega
    · rw [hhot, hlen2]
      exact hl1
    · rw [hhot, hlen2]
      exact hl2
    · intro hcontra
      rw [hhot, hnro2] at hcontra
      omega

/-- The offset each write of a contiguous trace should receive: the first
at `o`, and each subsequent one at the previous offset plus its delta. -/
def expectedOffsets : Int → List Nat → List Int
  | _, [] => []
  | o, n :: ns => o :: expectedOffsets (o + n) ns

theorem expectedOffsets_chain (o : Int) (ns : List Nat) (h : ∀ n ∈ ns, 1 ≤ n) :
    List.Chain' (fun a b => a < b) (expectedOffsets o ns) := by
  induction ns generalizing o with
  | nil => exact List.chain'_nil
  | cons n ns ih =>
    show List.Chain' _ (o :: expectedOffsets (o + n) ns)
    rw [List.chain'_cons']
    refine ⟨?_, ih (o + n) (fun x hx => h x (by simp [hx]))⟩
    intro y hy
    cases ns with
    | nil => simp [expectedOffsets] at hy
    | cons n2 ns2 =>
      show o < y
      have : y = o + n := by
        simp only [expectedOffsets, List.head?_cons, Option.mem_def, Option.some.injEq] at hy
        omega
      have hn : 1 ≤ n := h n (by simp)
      have : (1 : Int) ≤ (n : Int) := by exact_mod_cast hn
      omega

theorem runWrites_offsets :
    ∀ (ws : List WriteReq) (bl : BigLog), GoodBL bl →
      (∀ x ∈ ws, 1 ≤ x.n ∧ x.n < U32) →
      noWrapWrites bl ws = true →
      ∀ os blf, runWrites bl ws = some (os, blf) →
      os = expectedOffsets (blNextOffset bl) (ws.map WriteReq.n) := by
  intro ws
  induction ws with
  | nil =>
    intro bl hg hn hw os blf hr
    simp only [runWrites, Option.some.injEq, Prod.mk.injEq] at hr
    rw [← hr.1]
    rfl
  | cons wq ws ih =>
    intro bl hg hn hw os blf hr
    simp only [runWrites] at hr
    simp only [noWrapWrites] at hw
    cases hsp : blSplitIfFull bl with
    | none =>
      rw [hsp] at hr
      simp at hr
    | some bl1 =>
      rw [hsp] at hr hw
      simp only [] at hr hw
      obtain ⟨hnext_eq, hg1⟩ := blSplitIfFull_ok bl bl1 hg hsp
      cases hwr : (hotSeg bl1).writeN wq.b (wq.n % U32) wq.ts with
      | error e =>
        rw [hwr] at hr
        simp at hr
      | ok p =>
        obtain ⟨w, hot2⟩ := p
        rw [hwr] at hr hw
        simp only [] at hr hw
        cases hrec : runWrites (setHot bl1 hot2) ws with
        | none =>
          rw [hrec] at hr
          simp at hr
        | some q =>
          obtain ⟨os', blf'⟩ := q
          rw [hrec] at hr
          simp only [Option.some.injEq, Prod.mk.injEq] at hr
          obtain ⟨hos, _⟩ := hr
          have hq := hn wq (by simp)
          have hmod : wq.n % U32 = wq.n := Nat.mod_eq_of_lt hq.2
          rw [Bool.and_eq_true, decide_eq_true_eq] at hw
          obtain ⟨hw1, hw2⟩ := hw
          obtain ⟨ho1, hg2⟩ := hotWrite_ok bl1 wq.b (wq.n % U32) wq.ts w hot2 hg1
            (by omega) hw1 hwr
          have hrec2 := ih (setHot bl1 hot2) hg2
            (fun x hx => hn x (by simp [hx])) hw2 os' blf' hrec
          rw [← hos]
          show blNextOffset bl1 :: os' =
            expectedOffsets (blNextOffset bl) (wq.n :: ws.map WriteReq.n)
          show blNextOffset bl1 :: os' =
            blNextOffset bl :: expectedOffsets (blNextOffset bl + wq.n) (ws.map WriteReq.n)
          rw [hnext_eq, hrec2, ho1, hnext_eq, hmod]

theorem goodBL_create (max : Nat) (hU : iw * max < U32) (bl0 : BigLog)
    (hc : blCreate max = some bl0) : GoodBL bl0 ∧ blNextOffset bl0 = 0 := by
  unfold blCreate at hc
  rcases Option.map_eq_some'.mp hc with ⟨seg, hcs, hbl⟩
  obtain ⟨hseg, hmax⟩ := createSegment_some _ _ _ hcs
  subst hbl
  subst hseg
  have hhot : hotSeg ⟨[(⟨0, freshIndex max, 1, 0, 0, 0⟩ : Segment)]⟩ =
      ⟨0, freshIndex max, 1, 0, 0, 0⟩ := rfl
  refine ⟨⟨by simp, ?_, ?_, ?_, ?_, ?_, ?_⟩, ?_⟩
  · intro s hs
    rw [List.mem_singleton.mp hs, hhot]
  · rw [hhot]
  · rw [hhot]
    norm_num [U32]
  · rw [hhot]
    show 1 ≤ (freshIndex max).length
    rw [freshIndex_length]
    exact hmax
  · rw [hhot]
    show iw * (freshIndex max).length < U32
    rw [freshIndex_length]
    exact hU
  · intro
    rw [hhot]
  · unfold blNextOffset absolute
    rw [hhot]
    norm_num

/-- Claim C1, amended: over any sequence of successful `WriteN(b_i, n_i)`
calls on a freshly created BigLog — with each `n_i` in `[1, 2^32)` and no
write overflowing the hot segment's `uint32` next relative offset — the
absolute offsets assigned to the writes start at zero and are contiguous
(`o_{i+1} = o_i + n_i`), hence strictly increasing. -/
theorem C1_offsets_contiguous (max : Nat) (hmax : iw * max < U32)
    (bl0 : BigLog) (hc : blCreate max = some bl0) (ws : List WriteReq)
    (hn : ∀ x ∈ ws, 1 ≤ x.n ∧ x.n < U32) (hw : noWrapWrites bl0 ws = true)
    (os : List Int) (blf : BigLog) (hr : runWrites bl0 ws = some (os, blf)) :
    os = expectedOffsets 0 (ws.map WriteReq.n) ∧
    List.Chain' (fun a b => a < b) os ∧
    (ws ≠ [] → os.headD 0 = 0) := by
  obtain ⟨hg, h0⟩ := goodBL_create max hmax bl0 hc
  have hos := runWrites_offsets ws bl0 hg hn hw os blf hr
  rw [h0] at hos
  refine ⟨hos, ?_, ?_⟩
  · rw [hos]
    exact expectedOffsets_chain 0 (ws.map WriteReq.n)
      (fun n hn2 => by
        rcases List.mem_map.mp hn2 with ⟨x, hx, hxe⟩
        rw [← hxe]
        exact (hn x hx).1)
  · intro hne
    rw [hos]
    cases ws with
    | nil => exact absurd rfl hne
    | cons a t => rfl

/-- A concrete freshly created BigLog with eight index entries. -/
def c1WitBl : BigLog := (blCreate 8).getD ⟨[]⟩

/-- Three concrete writes: one offset, a batch of two, one offset. -/
def c1WitWrites : List WriteReq := [⟨[1, 2], 1, 5⟩, ⟨[3], 2, 6⟩, ⟨[4], 1, 7⟩]

/-- The BigLog after running the three concrete writes. -/
def c1WitFinal : BigLog := ((runWrites c1WitBl c1WitWrites).getD ([], ⟨[]⟩)).2

/-- Witness for `C1_offsets_contiguous` on the three concrete writes, whose
offsets come out as `[0, 1, 3]`. -/
theorem C1_witness :
    ([0, 1, 3] : List Int) = expectedOffsets 0 (c1WitWrites.map WriteReq.n) ∧
    List.Chain' (fun a b => a < b) ([0, 1, 3] : List Int) ∧
    (c1WitWrites ≠ [] → ([0, 1, 3] : List Int).headD 0 = 0) :=
  C1_offsets_contiguous 8 (by norm_num [iw, U32]) c1WitBl (by decide) c1WitWrites
    (by decide) (by decide) [0, 1, 3] c1WitFinal (by decide)

/-- Three writes with `n = 2^31, 2^31, 1`: all succeed, but the `uint32`
next relative offset wraps, so the assigned offsets `[0, 2^31, 0]` are not
strictly increasing and not contiguous — refuting claim C1 as stated. -/
def c1CxWrites : List WriteReq := [⟨[], 2147483648, 5⟩, ⟨[], 2147483648, 6⟩, ⟨[], 1, 7⟩]

/-- Counterexample to claim C1 as stated: a sequence of successful writes
with all deltas at least one whose assigned offsets are not strictly
increasing (`o₃ = 0 < o₂ = 2^31`) and not contiguous (`o₃ ≠ o₂ + n₂`). -/
theorem C1_counterexample :
    (∀ x ∈ c1CxWrites, 1 ≤ x.n) ∧
    ((blCreate 8).bind fun bl0 => (runWrites bl0 c1CxWrites).map Prod.fst) =
      some [0, 2147483648, 0] ∧
    ¬ List.Chain' (fun a b => (a : Int) < b) ([0, 2147483648, 0] : List Int) ∧
    ¬ ((0 : Int) = 2147483648 + (2147483648 : Nat)) := by
  refine ⟨by decide, by decide, ?_, by decide⟩
  intro hchain
  have := List.chain'_iff_pairwise.mp hchain
  rw [List.pairwise_cons] at this
  have h2 := this.2
  rw [List.pairwise_cons] at h2
  have := h2.1 0 (by simp)
  omega

theorem blLatest_concat_fresh (l : List Segment) (hne : l ≠ []) (nb : Int)
    (idx : List IdxEntry) (d : Nat) :
    blLatest ⟨l ++ [⟨nb, idx, 1, 0, 0, d⟩]⟩ = nb - 1 := by
  have hh := hotSeg_concat l ⟨nb, idx, 1, 0, 0, d⟩
  have hcond : ¬ ((⟨l ++ [(⟨nb, idx, 1, 0, 0, d⟩ : Segment)]⟩ : BigLog).segs.length = 1 ∧
      (hotSeg ⟨l ++ [(⟨nb, idx, 1, 0, 0, d⟩ : Segment)]⟩).NRO = 1) := by
    rintro ⟨h1, _⟩
    rw [show (⟨l ++ [(⟨nb, idx, 1, 0, 0, d⟩ : Segment)]⟩ : BigLog).segs =
      l ++ [(⟨nb, idx, 1, 0, 0, d⟩ : Segment)] from rfl, List.length_append] at h1
    simp at h1
    exact hne (by simpa using h1)
  unfold blLatest
  rw [if_neg hcond, hh]
  unfold absolute
  norm_num [U32]

theorem blOldest_concat (l : List Segment) (x : Segment) (hne : l ≠ []) :
    blOldest ⟨l ++ [x]⟩ = blOldest ⟨l⟩ := by
  unfold blOldest
  cases l with
  | nil => exact absurd rfl hne
  | cons a t => rfl

/-- Claim C8: after a successful `Split()`, the new hot segment starts at
the previous latest offset plus one with the same `maxIndexEntries`;
`Latest()` and `Oldest()` are unchanged; and any subsequent successful
write lands in the new segment (no further split happens). The size bound
keeps `uint32(len(index))` from truncating, as on any real mmap. -/
theorem C8_split_frame (bl bl2 : BigLog) (hne : bl.segs ≠ [])
    (hlen : iw * (hotSeg bl).index.length < U32)
    (h : blSplit bl = some bl2) :
    (hotSeg bl2).baseOffset = blLatest bl + 1 ∧
    (hotSeg bl2).index.length = (hotSeg bl).index.length ∧
    (hotSeg bl2).NRO = 1 ∧
    blLatest bl2 = blLatest bl ∧
    blOldest bl2 = blOldest bl ∧
    (∀ b n ts w bl3, blWriteN bl2 b n ts = .ok (w, bl3) →
      (hotSeg bl3).baseOffset = blLatest bl + 1 ∧
        bl3.segs.length = bl2.segs.length) := by
  have hmaxIE : (hotSeg bl).indexSize / iw = (hotSeg bl).index.length := by
    unfold Segment.indexSize
    rw [Nat.mod_eq_of_lt hlen, Nat.mul_div_cancel_left _ (show 0 < iw by norm_num [iw])]
  unfold blSplit at h
  split at h
  · exact absurd h (by simp)
  rename_i hcol
  rw [hmaxIE] at h
  rcases Option.map_eq_some'.mp h with ⟨seg, hcs, hbl2⟩
  obtain ⟨hseg, hmax1⟩ := createSegment_some _ _ _ hcs
  subst hbl2
  subst hseg
  have hhot2 := hotSeg_concat bl.segs
    ⟨blLatest bl + 1, freshIndex (hotSeg bl).index.length, 1, 0, 0, 0⟩
  have hlat2 : blLatest ⟨bl.segs ++ [(⟨blLatest bl + 1,
      freshIndex (hotSeg bl).index.length, 1, 0, 0, 0⟩ : Segment)]⟩ = blLatest bl := by
    rw [blLatest_concat_fresh bl.segs hne (blLatest bl + 1) _ 0]
    ring
  have hold2 : blOldest ⟨bl.segs ++ [(⟨blLatest bl + 1,
      freshIndex (hotSeg bl).index.length, 1, 0, 0, 0⟩ : Segment)]⟩ = blOldest bl := by
    rw [blOldest_concat bl.segs _ hne]
  refine ⟨by rw [hhot2], ?_, by rw [hhot2], hlat2, hold2, ?_⟩
  · rw [hhot2]
    show (freshIndex (hotSeg bl).index.length).length = _
    rw [freshIndex_length]
  · intro b n ts w bl3 hwn
    unfold blWriteN at hwn
    by_cases hfull : ((hotSeg ⟨bl.segs ++ [(⟨blLatest bl + 1,
        freshIndex (hotSeg bl).index.length, 1, 0, 0, 0⟩ : Segment)]⟩).isFull : Bool) = true
    · -- the fresh segment is full only when it has a single index entry;
      -- the follow-up split then collides with the fresh segment's base
      exfalso
      have hsp : blSplitIfFull ⟨bl.segs ++ [(⟨blLatest bl + 1,
          freshIndex (hotSeg bl).index.length, 1, 0, 0, 0⟩ : Segment)]⟩ = none := by
        unfold blSplitIfFull
        rw [if_pos hfull]
        unfold blSplit
        rw [if_pos]
        rw [List.any_eq_true]
        refine ⟨⟨blLatest bl + 1, freshIndex (hotSeg bl).index.length, 1, 0, 0, 0⟩,
          by simp, ?_⟩
        rw [hlat2]
        simp
      rw [hsp] at hwn
      simp at hwn
    · have hsp : blSplitIfFull ⟨bl.segs ++ [(⟨blLatest bl + 1,
          freshIndex (hotSeg bl).index.length, 1, 0, 0, 0⟩ : Segment)]⟩ =
          some ⟨bl.segs ++ [(⟨blLatest bl + 1,
            freshIndex (hotSeg bl).index.length, 1, 0, 0, 0⟩ : Segment)]⟩ := by
        unfold blSplitIfFull
        rw [if_neg hfull]
      rw [hsp] at hwn
      simp only [] at hwn
      cases hwr : (hotSeg ⟨bl.segs ++ [(⟨blLatest bl + 1,
          freshIndex (hotSeg bl).index.length, 1, 0, 0, 0⟩ : Segment)]⟩).writeN
          b (n % U32) ts with
      | error e =>
        rw [hwr] at hwn
        simp at hwn
      | ok p =>
        obtain ⟨w2, hot2⟩ := p
        rw [hwr] at hwn
        simp only [Except.ok.injEq, Prod.mk.injEq] at hwn
        obtain ⟨_, hbl3⟩ := hwn
        obtain ⟨_, _, _, _, _, hs2⟩ := writeN_ok _ _ _ _ _ _ hwr
        constructor
        · rw [← hbl3, hotSeg_setHot, hs2, hhot2]
        · rw [← hbl3]
          show (List.dropLast _ ++ [hot2]).length = _
          rw [List.length_append, List.length_dropLast, List.length_append]
          simp

/-- A concrete BigLog: created with four index entries, one batch written. -/
def c8WitBl : BigLog :=
  ((blWriteN ((blCreate 4).getD ⟨[]⟩) [9, 9] 3 21).toOption.map Prod.snd).getD ⟨[]⟩

/-- The same BigLog after `Split()`. -/
def c8WitBl2 : BigLog := (blSplit c8WitBl).getD ⟨[]⟩

/-- Witness for `C8_split_frame` on the concrete split BigLog. -/
theorem C8_witness :
    (hotSeg c8WitBl2).baseOffset = blLatest c8WitBl + 1 ∧
    (hotSeg c8WitBl2).index.length = (hotSeg c8WitBl).index.length ∧
    (hotSeg c8WitBl2).NRO = 1 ∧
    blLatest c8WitBl2 = blLatest c8WitBl ∧
    blOldest c8WitBl2 = blOldest c8WitBl ∧
    (∀ b n ts w bl3, blWriteN c8WitBl2 b n ts = .ok (w, bl3) →
      (hotSeg bl3).baseOffset = blLatest c8WitBl + 1 ∧
        bl3.segs.length = c8WitBl2.segs.length) :=
  C8_split_frame c8WitBl c8WitBl2 (by decide) (by decide) (by decide)

/-- A segment created with eight index entries after `WriteN([9], 100)`:
one data write that reserves relative offsets 1 to 100. -/
def c5BugSeg : Segment :=
  ((Segment.writeN ((createSegment 8 0).getD dummySegment) [9] 100 3).toOption.map
    Prod.snd).getD dummySegment

/-- Claim C5 (code bug): `Lookup(50)` on a reachable segment with
`NRO = 101` — relative offset 50 is embedded in the batched write — panics
in Go (`s.index[(50-1)*16:]` is past the 128-byte mmap) instead of
returning the enclosing entry with the `ErrEmbeddedOffset` sentinel. -/
theorem C5_lookup_panics_on_far_embedded :
    (1 : Nat) ≤ 50 ∧ 50 ≤ c5BugSeg.NRO ∧ SegReachable c5BugSeg ∧
    c5BugSeg.lookup 50 = .panicked := by
  refine ⟨by norm_num, by decide, ?_, by decide⟩
  exact SegReachable.step ((createSegment 8 0).getD dummySegment) [9] 100 3 1 c5BugSeg
    (SegReachable.created 8 0 _ (by decide)) (by decide)

/-- `strings.ToLower` (ASCII suffices for all offset keywords). -/
def goToLower (s : String) : String := ⟨s.data.map Char.toLower⟩

/-- Decimal digits folded into a number. -/
def digitsToNat (ds : List Char) : Nat :=
  ds.foldl (fun a c => a * 10 + (c.toNat - 48)) 0

/-- `strconv.ParseInt(str, 10, 0)`: optional sign, decimal digits only,
64-bit range check (a range error is an error, like any parse failure). -/
def goParseInt (s : String) : Option Int :=
  match s.data with
  | [] => none
  | c :: rest =>
    let neg : Bool := c = '-'
    let ds := if c = '-' ∨ c = '+' then rest else c :: rest
    if ds.isEmpty then none
    else if ds.all Char.isDigit then
      let sv : Int := if neg then -(digitsToNat ds : Int) else (digitsToNat ds : Int)
      if sv < -9223372036854775808 ∨ 9223372036854775807 < sv then none
      else some sv
    else none

/-- `Topic.ParseOffset`, parametrized by the external
`bigduration.ParseBigDuration` (`dp`, returning the duration in seconds)
and the current unix time. `bd.Until(now)` is `now - d`; an `After` error
maps to `ErrInvalidOffset`, an `After` panic propagates. -/
def parseOffset (bl : BigLog) (dp : String → Option Int) (now : Int)
    (str : String) : Except GoErr Int :=
  if goToLower str = "" ∨ goToLower str = "beginning" ∨ goToLower str = "first" ∨
      goToLower str = "oldest" ∨ goToLower str = "start" then
    .ok (blOldest bl)
  else if goToLower str = "last" ∨ goToLower str = "latest" then .ok (blLatest bl)
  else if goToLower str = "end" ∨ goToLower str = "now" then .ok (blLatest bl + 1)
  else
    match goParseInt (goToLower str) with
    | some v => .ok v
    | none =>
      match dp (goToLower str) with
      | none => .error .invalidOffset
      | some d =>
        match blAfter bl (now - d) with
        | .ok off => .ok off
        | .error .panicked => .error .panicked
        | .error _ => .error .invalidOffset

/-- The string is none of the nine offset keywords. -/
def NotOffsetKeyword (s : String) : Prop :=
  s ∉ ["", "beginning", "first", "oldest", "start", "last", "latest", "end", "now"]

instance (s : String) : Decidable (NotOffsetKeyword s) := by
  unfold NotOffsetKeyword
  infer_instance

theorem goParseInt_not_keyword (s : String) (v : Int)
    (h : goParseInt s = some v) : NotOffsetKeyword s := by
  intro hmem
  simp only [List.mem_cons, List.not_mem_nil, or_false] at hmem
  rcases hmem with rfl | rfl | rfl | rfl | rfl | rfl | rfl | rfl | rfl
  · rw [show goParseInt "" = none from by decide] at h
    simp at h
  · rw [show goParseInt "beginning" = none from by decide] at h
    simp at h
  · rw [show goParseInt "first" = none from by decide] at h
    simp at h
  · rw [show goParseInt "oldest" = none from by decide] at h
    simp at h
  · rw [show goParseInt "start" = none from by decide] at h
    simp at h
  · rw [show goParseInt "last" = none from by decide] at h
    simp at h
  · rw [show goParseInt "latest" = none from by decide] at h
    simp at h
  · rw [show goParseInt "end" = none from by decide] at h
    simp at h
  · rw [show goParseInt "now" = none from by decide] at h
    simp at h

/-- Claim C9: `ParseOffset` sends the empty string and
beginning/first/oldest/start to `Oldest()`, last/latest to `Latest()`,
end/now to `Latest()+1`, numeric strings to their integer value, duration
strings to `After(now - d)`, and everything else to the invalid-offset
error. -/
theorem C9_parse_offset (bl : BigLog) (dp : String → Option Int) (now : Int) :
    (∀ str, (goToLower str = "" ∨ goToLower str = "beginning" ∨
        goToLower str = "first" ∨ goToLower str = "oldest" ∨
        goToLower str = "start") →
      parseOffset bl dp now str = .ok (blOldest bl)) ∧
    (∀ str, (goToLower str = "last" ∨ goToLower str = "latest") →
      parseOffset bl dp now str = .ok (blLatest bl)) ∧
    (∀ str, (goToLower str = "end" ∨ goToLower str = "now") →
      parseOffset bl dp now str = .ok (blLatest bl + 1)) ∧
    (∀ str v, goParseInt (goToLower str) = some v →
      parseOffset bl dp now str = .ok v) ∧
    (∀ str d off, NotOffsetKeyword (goToLower str) →
      goParseInt (goToLower str) = none → dp (goToLower str) = some d →
      blAfter bl (now - d) = .ok off → parseOffset bl dp now str = .ok off) ∧
    (∀ str, NotOffsetKeyword (goToLower str) →
      goParseInt (goToLower str) = none → dp (goToLower str) = none →
      parseOffset bl dp now str = .error .invalidOffset) := by
  refine ⟨?_, ?_, ?_, ?_, ?_, ?_⟩
  · intro str hs
    unfold parseOffset
    rw [if_pos hs]
  · intro str hs
    unfold parseOffset
    rcases hs with h | h <;> rw [h] <;> rw [if_neg (by decide), if_pos (by decide)]
  · intro str hs
    unfold parseOffset
    rcases hs with h | h <;> rw [h] <;>
      rw [if_neg (by decide), if_neg (by decide), if_pos (by decide)]
  · intro str v hv
    have hnk := goParseInt_not_keyword _ v hv
    unfold parseOffset
    rw [if_neg (by rintro (h | h | h | h | h) <;> exact hnk (by simp [h])),
      if_neg (by rintro (h | h) <;> exact hnk (by simp [h])),
      if_neg (by rintro (h | h) <;> exact hnk (by simp [h])), hv]
  · intro str d off hnk hpi hdp haf
    unfold parseOffset
    rw [if_neg (by rintro (h | h | h | h | h) <;> exact hnk (by simp [h])),
      if_neg (by rintro (h | h) <;> exact hnk (by simp [h])),
      if_neg (by rintro (h | h) <;> exact hnk (by simp [h])), hpi, hdp]
    simp only []
    rw [haf]
  · intro str hnk hpi hdp
    unfold parseOffset
    rw [if_neg (by rintro (h | h | h | h | h) <;> exact hnk (by simp [h])),
      if_neg (by rintro (h | h) <;> exact hnk (by simp [h])),
      if_neg (by rintro (h | h) <;> exact hnk (by simp [h])), hpi, hdp]

/-- A concrete BigLog for the offset-parsing witnesses. -/
def c9Bl : BigLog := (blCreate 4).getD ⟨[]⟩

/-- Witness for `C9_parse_offset`: keyword, numeric, and unrecognized
strings on a concrete BigLog with the always-failing duration parser. -/
theorem C9_witness :
    parseOffset c9Bl (fun _ => none) 0 "first" = .ok (blOldest c9Bl) ∧
    parseOffset c9Bl (fun _ => none) 0 "42" = .ok 42 ∧
    parseOffset c9Bl (fun _ => none) 0 "2a2" = .error .invalidOffset :=
  ⟨(C9_parse_offset c9Bl (fun _ => none) 0).1 "first" (by decide),
   (C9_parse_offset c9Bl (fun _ => none) 0).2.2.2.1 "42" 42 (by decide),
   (C9_parse_offset c9Bl (fun _ => none) 0).2.2.2.2.2 "2a2" (by decide) (by decide) rfl⟩

/-- Claim C10: a BigLog with a single segment at base 0 and no writes has
`Latest() = -1` and `Oldest() = 0`; hence `ParseOffset` returns `-1` for
"last" and `0` for "end" on an empty topic. -/
theorem C10_empty_log (bl : BigLog) (s : Segment) (hseg : bl.segs = [s])
    (hnro : s.NRO = 1) (hbase : s.baseOffset = 0)
    (dp : String → Option Int) (now : Int) :
    blLatest bl = -1 ∧ blOldest bl = 0 ∧
    parseOffset bl dp now "last" = .ok (-1) ∧
    parseOffset bl dp now "end" = .ok 0 := by
  have hhot : hotSeg bl = s := by
    unfold hotSeg
    rw [hseg]
    rfl
  have hlat : blLatest bl = -1 := by
    unfold blLatest
    rw [if_pos ⟨by rw [hseg]; rfl, by rw [hhot, hnro]⟩]
  have hold : blOldest bl = 0 := by
    unfold blOldest
    rw [hseg]
    simpa using hbase
  refine ⟨hlat, hold, ?_, ?_⟩
  · unfold parseOffset
    rw [if_neg (by decide), if_pos (by decide), hlat]
  · unfold parseOffset
    rw [if_neg (by decide), if_neg (by decide), if_pos (by decide), hlat]
    norm_num

/-- The single segment of the C10 witness BigLog. -/
def c10Seg : Segment := (createSegment 4 0).getD dummySegment

/-- Witness for `C10_empty_log` on a concrete freshly created BigLog. -/
theorem C10_witness :
    blLatest c9Bl = -1 ∧ blOldest c9Bl = 0 ∧
    parseOffset c9Bl (fun _ => none) 0 "last" = .ok (-1) ∧
    parseOffset c9Bl (fun _ => none) 0 "end" = .ok 0 :=
  C10_empty_log c9Bl c10Seg (by decide) (by decide) (by decide) (fun _ => none) 0

/-- Modelled from the spec: `message.Pack` is not among the provided
sources (only its caller `messageBuffer.flush` is); per spec §4.1,
`pack(messages, compression)` concatenates the messages through the chosen
compressor, wraps the result via `from_payload` and stamps the compression
code — exactly the behavior of `MessageSet` in the provided `message.go`. -/
def packModel (gz sn : Codec) (msgs : List Message) (comp : Nat) : Option Message :=
  messageSet gz sn msgs comp

/-- The per-topic `messageBuffer`: a fixed-size slice of `BatchNumMessages`
slots, the count of buffered messages, and the configured compression.
The forwarded `WriteN` calls are returned as `(bytes, n)` pairs instead of
being sent to the `nWriter`. -/
structure MsgBuffer where
  buff : List Message
  buffered : Nat
  messages : Nat
  comp : Nat
  deriving DecidableEq, Repr

/-- `newMessageBuffer`: `BatchNumMessages` empty slots, nothing buffered. -/
def newMessageBuffer (n comp : Nat) : MsgBuffer := ⟨List.replicate n [], 0, n, comp⟩

/-- `messageBuffer.flush`: a no-op when empty; a single message forwarded
unpacked as `WriteN(bytes, 1)`; otherwise one packed message-set forwarded
as `WriteN(packed, buffered)`. The buffered count is reset in all cases
(the Go `defer`). The `Option` in the result is the forwarded call, if any;
`panicked` models the `Pack` panic on an invalid compression type. -/
def MsgBuffer.flush (gz sn : Codec) (m : MsgBuffer) :
    Except GoErr (Option (List Nat × Nat) × MsgBuffer) :=
  if m.buffered = 0 then .ok (none, m)
  else if m.buffered = 1 then .ok (some (m.buff.getD 0 [], 1), { m with buffered := 0 })
  else
    match packModel gz sn (m.buff.take m.buffered) m.comp with
    | none => .error .panicked
    | some data => .ok (some (data, m.buffered), { m with buffered := 0 })

/-- `messageBuffer.Write`: store the message at the next slot and flush
synchronously when the batch size is reached. `panicked` models the Go
index-out-of-range panic when the slice is already full. -/
def MsgBuffer.write (gz sn : Codec) (m : MsgBuffer) (p : List Nat) :
    Except GoErr (Option (List Nat × Nat) × MsgBuffer) :=
  if m.buff.length ≤ m.buffered then .error .panicked
  else
    if m.buffered + 1 = m.messages then
      MsgBuffer.flush gz sn
        { m with buff := m.buff.set m.buffered p, buffered := m.buffered + 1 }
    else .ok (none, { m with buff := m.buff.set m.buffered p, buffered := m.buffered + 1 })

/-- Claim C7: `Write` appends to the internal slice and flushes
synchronously inside the same call exactly when the buffered count reaches
the batch size; `flush` is a no-op on an empty buffer, forwards a single
message unpacked via `WriteN(bytes, 1)`, packs `k > 1` messages into one
message-set with the configured compression forwarded via
`WriteN(packed, k)`, and always leaves the buffered count at zero. -/
theorem C7_message_buffer (gz sn : Codec) :
    (∀ (m : MsgBuffer) (p : List Nat), m.buffered < m.buff.length →
      m.buffered + 1 ≠ m.messages →
      MsgBuffer.write gz sn m p =
        .ok (none, { m with
          buff := m.buff.set m.buffered p
          buffered := m.buffered + 1 })) ∧
    (∀ (m : MsgBuffer) (p : List Nat), m.buffered < m.buff.length →
      m.buffered + 1 = m.messages →
      MsgBuffer.write gz sn m p =
        MsgBuffer.flush gz sn
          { m with
            buff := m.buff.set m.buffered p
            buffered := m.buffered + 1 }) ∧
    (∀ m : MsgBuffer, m.buffered = 0 → MsgBuffer.flush gz sn m = .ok (none, m)) ∧
    (∀ m : MsgBuffer, m.buffered = 1 → MsgBuffer.flush gz sn m =
      .ok (some (m.buff.getD 0 [], 1), { m with buffered := 0 })) ∧
    (∀ (m : MsgBuffer) (data : Message), 2 ≤ m.buffered →
      packModel gz sn (m.buff.take m.buffered) m.comp = some data →
      MsgBuffer.flush gz sn m = .ok (some (data, m.buffered), { m with buffered := 0 })) ∧
    (∀ (m m2 : MsgBuffer) (c : Option (List Nat × Nat)),
      MsgBuffer.flush gz sn m = .ok (c, m2) → m2.buffered = 0) := by
  refine ⟨?_, ?_, ?_, ?_, ?_, ?_⟩
  · intro m p h1 h2
    unfold MsgBuffer.write
    rw [if_neg (by omega), if_neg h2]
  · intro m p h1 h2
    unfold MsgBuffer.write
    rw [if_neg (by omega), if_pos h2]
  · intro m h
    unfold MsgBuffer.flush
    rw [if_pos h]
  · intro m h
    unfold MsgBuffer.flush
    rw [if_neg (by omega), if_pos h]
  · intro m data h1 h2
    unfold MsgBuffer.flush
    rw [if_neg (by omega), if_neg (by omega), h2]
  · intro m m2 c h
    unfold MsgBuffer.flush at h
    by_cases h0 : m.buffered = 0
    · rw [if_pos h0] at h
      simp only [Except.ok.injEq, Prod.mk.injEq] at h
      rw [← h.2, h0]
    · rw [if_neg h0] at h
      by_cases h1 : m.buffered = 1
      · rw [if_pos h1] at h
        simp only [Except.ok.injEq, Prod.mk.injEq] at h
        rw [← h.2]
      · rw [if_neg h1] at h
        cases hp : packModel gz sn (m.buff.take m.buffered) m.comp with
        | none =>
          rw [hp] at h
          simp at h
        | some data =>
          rw [hp] at h
          simp only [Except.ok.injEq, Prod.mk.injEq] at h
          rw [← h.2]

/-- A concrete buffer of batch size 3 holding two buffered messages. -/
def c7WitBuf : MsgBuffer :=
  ⟨[messageFromPayload [1], messageFromPayload [2, 3], []], 2, 3, compressionNone⟩

/-- Witness for `C7_message_buffer`: writing the third message into the
concrete buffer flushes synchronously, forwarding one packed message-set
carrying all three messages with offset delta 3. -/
theorem C7_witness :
    MsgBuffer.write idCodec idCodec c7WitBuf (messageFromPayload [4]) =
      MsgBuffer.flush idCodec idCodec
        { c7WitBuf with
          buff := c7WitBuf.buff.set c7WitBuf.buffered (messageFromPayload [4])
          buffered := c7WitBuf.buffered + 1 } ∧
    MsgBuffer.flush idCodec idCodec c7WitBuf =
      .ok (some ((packModel idCodec idCodec (c7WitBuf.buff.take 2) compressionNone).getD [],
        2), { c7WitBuf with buffered := 0 }) :=
  ⟨(C7_message_buffer idCodec idCodec).2.1 c7WitBuf (messageFromPayload [4])
      (by decide) (by decide),
   (C7_message_buffer idCodec idCodec).2.2.2.2.1 c7WitBuf
      ((packModel idCodec idCodec (c7WitBuf.buff.take 2) compressionNone).getD [])
      (by decide) (by decide)⟩

end Netlog
